import Mathlib

/-!
Shallow embedding of the swhkd daemon core (`src/daemon.rs`) and proofs of the
specification claims about it.  Pure data is modelled with `Finset`/`List`,
evdev key codes with `Nat`, and the `select!` event loop with an explicit step
function over a `DaemonState` plus an effect list.
-/

namespace Swhkd

/-- Evdev key code (Linux input-event code), as in `evdev::Key`. -/
abbrev Key := Nat

/-- Logical modifiers, from `config::Modifier` (daemon.rs uses exactly these
four constructors in its `modifiers_map`). -/
inductive Modifier
  | Super
  | Alt
  | Control
  | Shift
deriving DecidableEq, Repr

/-- KEY_ESC from linux input-event-codes. -/
def keyEsc : Key := 1
/-- KEY_ENTER from linux input-event-codes. -/
def keyEnter : Key := 28
/-- KEY_LEFTCTRL from linux input-event-codes. -/
def keyLeftCtrl : Key := 29
/-- KEY_LEFTSHIFT from linux input-event-codes. -/
def keyLeftShift : Key := 42
/-- KEY_RIGHTSHIFT from linux input-event-codes. -/
def keyRightShift : Key := 54
/-- KEY_LEFTALT from linux input-event-codes. -/
def keyLeftAlt : Key := 56
/-- KEY_RIGHTCTRL from linux input-event-codes. -/
def keyRightCtrl : Key := 97
/-- KEY_RIGHTALT from linux input-event-codes. -/
def keyRightAlt : Key := 100
/-- KEY_LEFTMETA from linux input-event-codes. -/
def keyLeftMeta : Key := 125
/-- KEY_RIGHTMETA from linux input-event-codes. -/
def keyRightMeta : Key := 126

/-- The fixed `modifiers_map` of daemon.rs lines 127-138: physical key code to
logical modifier.  The duplicate LEFTMETA/RIGHTMETA entries of the source are
idempotent in a map and collapse here. -/
def modifiersMap (k : Key) : Option Modifier :=
  if k = keyLeftMeta ∨ k = keyRightMeta then some Modifier.Super
  else if k = keyLeftAlt ∨ k = keyRightAlt then some Modifier.Alt
  else if k = keyLeftCtrl ∨ k = keyRightCtrl then some Modifier.Control
  else if k = keyLeftShift ∨ k = keyRightShift then some Modifier.Shift
  else none

/-- A hotkey binding.  Modelled from the spec: `config::Hotkey` lives in
`config.rs`, which is not under src/; spec section 3 defines it as the triple
`(modifiers : set of Modifier, keysym : KeyCode, command : string)`, so the
modifier collection is a `Finset`. -/
structure Hotkey where
  modifiers : Finset Modifier
  keysym : Key
  command : String
deriving DecidableEq

/-- Per-device state, from `struct KeyboardState` in daemon.rs. -/
structure KeyboardState where
  state_modifiers : Finset Modifier
  state_keysyms : Finset Key
deriving DecidableEq

/-- `KeyboardState::new()`. -/
def KeyboardState.new : KeyboardState := ⟨∅, ∅⟩

/-- The mutable state of the daemon's event loop: the hotkey table, the two
pause flags, the latched hotkey, the per-device keyboard states, and the
absolute deadline (in ms) of the repeat timer. -/
structure DaemonState where
  hotkeys : List Hotkey
  paused : Bool
  temp_paused : Bool
  last_hotkey : Option Hotkey
  keyboard_states : List KeyboardState
  timer_deadline : Nat
deriving DecidableEq

/-- Observable effects of one loop iteration: emitting an event on the virtual
uinput output, or dispatching a command over the IPC socket (`send_command`). -/
inductive Effect
  | emit (device : Nat) (key : Key) (value : Nat)
  | dispatch (command : String)
deriving DecidableEq

/-- The commands dispatched in an effect list. -/
def dispatches (effs : List Effect) : List String :=
  effs.filterMap fun e =>
    match e with
    | Effect.dispatch c => some c
    | _ => none

/-- State-set update of daemon.rs lines 219-245 (value 1 = press inserts,
value 0 = release removes, anything else ignored). -/
def updateKS (ks : KeyboardState) (key : Key) (value : Nat) : KeyboardState :=
  if value = 1 then
    match modifiersMap key with
    | some m => { ks with state_modifiers := insert m ks.state_modifiers }
    | none => { ks with state_keysyms := insert key ks.state_keysyms }
  else if value = 0 then
    match modifiersMap key with
    | some m => { ks with state_modifiers := ks.state_modifiers.erase m }
    | none =>
        if key ∈ ks.state_keysyms then
          { ks with state_keysyms := ks.state_keysyms.erase key }
        else ks
  else ks

/-- The `last_hotkey` update of daemon.rs lines 227-242, reading the
pre-update keyboard state `ks`: on a release (value 0) of a modifier-mapped
key, clear the latch when the latched hotkey's modifiers contain that
modifier; on a release of a non-modifier key that is currently in this
device's `state_keysyms`, clear the latch when the key equals the latched
hotkey's keysym. -/
def updateLast (last : Option Hotkey) (ks : KeyboardState) (key : Key) (value : Nat) :
    Option Hotkey :=
  if value = 0 then
    match modifiersMap key, last with
    | some m, some h => if m ∈ h.modifiers then none else some h
    | some _, none => none
    | none, some h => if key ∈ ks.state_keysyms ∧ key = h.keysym then none else some h
    | none, none => none
  else last

/-- `possible_hotkeys` of daemon.rs lines 247-249: hotkeys whose modifier
count equals the device's held-modifier count. -/
def candidateFilter (hotkeys : List Hotkey) (ks : KeyboardState) : List Hotkey :=
  hotkeys.filter fun h => h.modifiers.card == ks.state_modifiers.card

/-- `event_in_hotkeys` of daemon.rs lines 251-257: some hotkey's keysym code
equals the event code and its modifiers equal the held modifiers (written as
the source does: containment of every held modifier plus equal cardinality). -/
def eventInHotkeys (hotkeys : List Hotkey) (ks : KeyboardState) (key : Key) : Bool :=
  hotkeys.any fun h =>
    (h.keysym == key) && decide (ks.state_modifiers ⊆ h.modifiers) &&
      (ks.state_modifiers.card == h.modifiers.card)

/-- The fire condition of daemon.rs lines 288-290: every held modifier is in
the hotkey's modifiers, the cardinalities agree, and the keysym is held. -/
def fireMatch (ks : KeyboardState) (h : Hotkey) : Bool :=
  decide (ks.state_modifiers ⊆ h.modifiers) &&
    (ks.state_modifiers.card == h.modifiers.card) &&
    decide (h.keysym ∈ ks.state_keysyms)

/-- The temp-pause escape test of daemon.rs lines 277-279: every held modifier
is Shift or Super, and Escape is among the held keysyms. -/
def tempEscape (ks : KeyboardState) : Bool :=
  decide (ks.state_modifiers ⊆ ({Modifier.Shift, Modifier.Super} : Finset Modifier)) &&
    decide (keyEsc ∈ ks.state_keysyms)

/-- One key-event arm of the `select!` loop (daemon.rs lines 216-298): update
the device's state and the latch, decide passthrough, then run the gating
chain (paused / latched, empty candidate set, temp-pause escape) and finally
the fire loop over the candidates.  `now` is the current instant in ms; a fire
re-arms the repeat timer to `now + cooldown`. -/
def processKeyEvent (cooldown now : Nat) (st : DaemonState) (i : Nat) (key : Key)
    (value : Nat) : DaemonState × List Effect :=
  let ks0 := st.keyboard_states.getD i KeyboardState.new
  let ks := updateKS ks0 key value
  let last1 := updateLast st.last_hotkey ks0 key value
  let st1 : DaemonState :=
    { st with keyboard_states := st.keyboard_states.set i ks, last_hotkey := last1 }
  let emits : List Effect :=
    if eventInHotkeys st.hotkeys ks key then [] else [Effect.emit i key value]
  if st.paused || last1.isSome then (st1, emits)
  else if (candidateFilter st.hotkeys ks).isEmpty then (st1, emits)
  else if st.temp_paused then
    if tempEscape ks then ({ st1 with temp_paused := false }, emits) else (st1, emits)
  else
    match (candidateFilter st.hotkeys ks).find? (fireMatch ks) with
    | some h =>
        ({ st1 with last_hotkey := some h, timer_deadline := now + cooldown },
          emits ++ [Effect.dispatch h.command])
    | none => (st1, emits)

/-- The signals the loop handles by name (daemon.rs lines 185-214); every
other registered signal takes the terminating arm. -/
inductive Signal
  | sigusr1
  | sigusr2
  | sighup
  | sigint
  | other (n : Nat)
deriving DecidableEq

/-- Outcome of the environment when the config file is consulted: the file is
missing, `config::load` failed, or it produced a hotkey list.  `config::load`
itself lives in config.rs (not under src/); this type is its interface. -/
inductive LoadResult
  | ok (hotkeys : List Hotkey)
  | missing
  | invalid
deriving DecidableEq

/-- The `load_config` closure of daemon.rs lines 82-106: a missing config file
or a `config::Load` error makes the process `exit(1)` (`Sum.inl` is the exit
code), otherwise the parsed hotkey list is returned. -/
def load_config (r : LoadResult) : Sum Nat (List Hotkey) :=
  match r with
  | LoadResult.ok hks => Sum.inr hks
  | LoadResult.missing => Sum.inl 1
  | LoadResult.invalid => Sum.inl 1

/-- The signal arm of the `select!` loop (daemon.rs lines 184-214).  `Sum.inl`
is a process exit with the given code; grabbing/ungrabbing of devices is an
external effect with no bearing on the modelled state. -/
def processSignal (st : DaemonState) (s : Signal) (r : LoadResult) : Sum Nat DaemonState :=
  match s with
  | Signal.sigusr1 => Sum.inr { st with paused := true }
  | Signal.sigusr2 => Sum.inr { st with paused := false }
  | Signal.sighup =>
      match load_config r with
      | Sum.inl c => Sum.inl c
      | Sum.inr hks => Sum.inr { st with hotkeys := hks }
  | Signal.sigint => Sum.inr { st with temp_paused := true }
  | Signal.other _ => Sum.inl 1

/-- The repeat-timer arm of the `select!` loop (daemon.rs lines 179-183).  The
branch is guarded by `last_hotkey.is_some()`, and the tokio sleep completes
only once `now` has reached the armed deadline; when both hold the latched
command is dispatched again and the timer re-armed to `now + cooldown`. -/
def repeatTick (cooldown now : Nat) (st : DaemonState) : DaemonState × List Effect :=
  match st.last_hotkey with
  | some h =>
      if st.timer_deadline ≤ now then
        ({ st with timer_deadline := now + cooldown }, [Effect.dispatch h.command])
      else (st, [])
  | none => (st, [])

/-- One wake-up of the event loop: a tagged device key event, a repeat-timer
completion, or a signal (with the config-load outcome a SIGHUP would see). -/
inductive Input
  | key (i : Nat) (k : Key) (v : Nat)
  | tick
  | signal (s : Signal) (r : LoadResult)
deriving DecidableEq

/-- A dispatched command together with the time it was sent and whether it
came from the repeat-timer arm (true) or from a matcher fire (false). -/
structure LogEntry where
  time : Nat
  fromTick : Bool
  command : String
deriving DecidableEq

/-- Log entries for the dispatches of an effect list at time `t`. -/
def logOf (t : Nat) (tag : Bool) (effs : List Effect) : List LogEntry :=
  (dispatches effs).map fun c => ⟨t, tag, c⟩

/-- Run of the event loop over a list of timestamped wake-ups, collecting the
dispatch log.  A terminating signal (`Sum.inl`) ends the run. -/
def runLoop (cooldown : Nat) : DaemonState → List (Nat × Input) → DaemonState × List LogEntry
  | st, [] => (st, [])
  | st, (t, inp) :: rest =>
    match inp with
    | Input.key i k v =>
        let r := processKeyEvent cooldown t st i k v
        let res := runLoop cooldown r.1 rest
        (res.1, logOf t false r.2 ++ res.2)
    | Input.tick =>
        let r := repeatTick cooldown t st
        let res := runLoop cooldown r.1 rest
        (res.1, logOf t true r.2 ++ res.2)
    | Input.signal s lr =>
        match processSignal st s lr with
        | Sum.inl _ => (st, [])
        | Sum.inr st' => runLoop cooldown st' rest

/-- Keyboard-state evolution alone: process a list of device-tagged key events
`(device, key, value)`, dropping the effects.  Cooldown and clock are fixed at
0; they influence only `timer_deadline`. -/
def processEvents (st : DaemonState) (evs : List (Nat × Key × Nat)) : DaemonState :=
  evs.foldl (fun s e => (processKeyEvent 0 0 s e.1 e.2.1 e.2.2).1) st

/-- The daemon state right after startup: a freshly loaded hotkey table and
`n` grabbed keyboards with empty state sets (daemon.rs lines 159-171). -/
def initState (hotkeys : List Hotkey) (n : Nat) : DaemonState :=
  ⟨hotkeys, false, false, none, List.replicate n KeyboardState.new, 0⟩

/-- The per-device view of a tagged event list: the key/value pairs of the
events of device `i`, in order. -/
def filterDev (i : Nat) (evs : List (Nat × Key × Nat)) : List (Key × Nat) :=
  (evs.filter fun e => e.1 == i).map fun e => e.2

/-- Fold one key/value pair into a keyboard state. -/
def runKS (ks : KeyboardState) (l : List (Key × Nat)) : KeyboardState :=
  l.foldl (fun a e => updateKS a e.1 e.2) ks

/-- Last-qualifying-value accumulator: remembers the value of the most recent
event satisfying `p`. -/
def lastUpd (p : Key × Nat → Bool) (acc : Option Nat) (e : Key × Nat) : Option Nat :=
  if p e then some e.2 else acc

/-- Qualifier for press/release events of the key `k` itself. -/
def keyPred (k : Key) (e : Key × Nat) : Bool :=
  (e.1 == k) && ((e.2 == 0) || (e.2 == 1))

/-- Qualifier for press/release events of any key mapping to modifier `m`. -/
def modPred (m : Modifier) (e : Key × Nat) : Bool :=
  (modifiersMap e.1 == some m) && ((e.2 == 0) || (e.2 == 1))

/-- The press/release values of key `k` in a per-device event list. -/
def values01 (k : Key) (l : List (Key × Nat)) : List Nat :=
  (l.filter (keyPred k)).map fun e => e.2

/-- Press/release alternation automaton: `down` is whether the key is
currently held; a press (1) is legal only when up, a release (0) only when
down, and the sequence must end with the key up. -/
def balAux : Bool → List Nat → Bool
  | down, [] => !down
  | down, v :: rest =>
    if v == 1 then !down && balAux true rest
    else if v == 0 then down && balAux false rest
    else false

/-- A tagged event list is balanced when, for every device and key occurring
in it, that key's press/release events on that device alternate and end
released. -/
def balanced (evs : List (Nat × Key × Nat)) : Bool :=
  (evs.map fun e => (e.1, e.2.1)).all fun ik =>
    balAux false (values01 ik.2 (filterDev ik.1 evs))

/-- Separation predicate on a dispatch log: given that the repeat timer is
armed no earlier than `d`, every tick-sourced entry occurs at or after `d`,
and after any entry the timer is armed exactly `cooldown` later. -/
def Sep (cooldown : Nat) : Nat → List LogEntry → Prop
  | _, [] => True
  | d, e :: rest => (e.fromTick = true → d ≤ e.time) ∧ Sep cooldown (e.time + cooldown) rest

/-- The keyboard state of device `i` after the state update for one event. -/
def postState (st : DaemonState) (i : Nat) (key : Key) (value : Nat) : KeyboardState :=
  updateKS (st.keyboard_states.getD i KeyboardState.new) key value

/-- The latch after the update for one event. -/
def postLast (st : DaemonState) (i : Nat) (key : Key) (value : Nat) : Option Hotkey :=
  updateLast st.last_hotkey (st.keyboard_states.getD i KeyboardState.new) key value

/-- Spec-facing matcher: the first hotkey in config order whose modifier set
equals the held modifiers and whose keysym is among the held keys. -/
def firstEqualMatch (hotkeys : List Hotkey) (ks : KeyboardState) : Option Hotkey :=
  hotkeys.find? fun h =>
    decide (ks.state_modifiers = h.modifiers) && decide (h.keysym ∈ ks.state_keysyms)

theorem subset_card_eq_iff {s t : Finset Modifier} :
    s ⊆ t ∧ s.card = t.card ↔ s = t := by
  constructor
  · rintro ⟨hsub, hcard⟩
    exact Finset.eq_of_subset_of_card_le hsub (le_of_eq hcard.symm)
  · rintro rfl
    exact ⟨Finset.Subset.refl _, rfl⟩

theorem modEqB (s t : Finset Modifier) :
    (decide (s ⊆ t) && (s.card == t.card)) = decide (s = t) := by
  rw [Bool.eq_iff_iff]
  simp only [Bool.and_eq_true, decide_eq_true_eq, beq_iff_eq]
  exact subset_card_eq_iff

theorem fireMatch_eq (ks : KeyboardState) :
    fireMatch ks = fun h =>
      decide (ks.state_modifiers = h.modifiers) && decide (h.keysym ∈ ks.state_keysyms) := by
  funext h
  rw [fireMatch, Bool.and_assoc]
  rw [show (decide (ks.state_modifiers ⊆ h.modifiers) &&
      ((ks.state_modifiers.card == h.modifiers.card) &&
        decide (h.keysym ∈ ks.state_keysyms))) =
      ((decide (ks.state_modifiers ⊆ h.modifiers) &&
        (ks.state_modifiers.card == h.modifiers.card)) &&
        decide (h.keysym ∈ ks.state_keysyms)) from (Bool.and_assoc _ _ _).symm]
  rw [modEqB]

theorem find?_filter {α : Type} (l : List α) (p q : α → Bool)
    (hpq : ∀ x, p x = true → q x = true) : (l.filter q).find? p = l.find? p := by
  induction l with
  | nil => rfl
  | cons a l ih =>
    by_cases hq : q a = true
    · simp only [List.filter_cons, hq, if_true, List.find?_cons]
      cases hp : p a <;> simp [hp, ih]
    · have hp : p a = false := by
        cases hpa : p a
        · rfl
        · exact absurd (hpq a hpa) (by simp [hq])
      simp only [List.filter_cons, hq, if_false, List.find?_cons, hp]
      exact ih

theorem updateLast_none (ks : KeyboardState) (key : Key) (value : Nat) :
    updateLast none ks key value = none := by
  unfold updateLast
  split
  · cases h : modifiersMap key <;> simp
  · rfl

theorem find?_candidateFilter (hotkeys : List Hotkey) (ks : KeyboardState) :
    (candidateFilter hotkeys ks).find? (fireMatch ks) = firstEqualMatch hotkeys ks := by
  rw [candidateFilter, find?_filter, fireMatch_eq, firstEqualMatch]
  intro h hm
  rw [fireMatch] at hm
  simp only [Bool.and_eq_true, beq_iff_eq] at hm ⊢
  omega

theorem eventInHotkeys_iff (hotkeys : List Hotkey) (ks : KeyboardState) (key : Key) :
    eventInHotkeys hotkeys ks key = true ↔
      ∃ H ∈ hotkeys, H.keysym = key ∧ H.modifiers = ks.state_modifiers := by
  rw [eventInHotkeys, List.any_eq_true]
  constructor
  · rintro ⟨h, hmem, hp⟩
    simp only [Bool.and_eq_true, decide_eq_true_eq, beq_iff_eq] at hp
    exact ⟨h, hmem, hp.1.1, (subset_card_eq_iff.mp ⟨hp.1.2, hp.2⟩).symm⟩
  · rintro ⟨h, hmem, hk, hmods⟩
    refine ⟨h, hmem, ?_⟩
    simp only [Bool.and_eq_true, decide_eq_true_eq, beq_iff_eq]
    exact ⟨⟨hk, hmods ▸ Finset.Subset.refl _⟩, by rw [hmods]⟩

theorem dispatches_emits (b : Bool) (i : Nat) (key : Key) (value : Nat) :
    dispatches (if b then [] else [Effect.emit i key value]) = [] := by
  cases b <;> rfl

/-- C1: with `paused` false, `temp_paused` false and the latch unset, a key
event fires exactly the first hotkey in config order whose modifier set
*equals* the device's held modifiers and whose keysym is held: the latch is
set to it, its command is the one dispatch, and the repeat timer is armed to
`now + cooldown`; when no hotkey matches with set equality (in particular
when extra modifiers such as Shift are held beyond a binding's set), nothing
is dispatched and the latch stays unset. -/
theorem fire_first_equal_match (cooldown now : Nat) (st : DaemonState) (i : Nat)
    (key : Key) (value : Nat)
    (hp : st.paused = false) (ht : st.temp_paused = false) (hl : st.last_hotkey = none) :
    match firstEqualMatch st.hotkeys (postState st i key value) with
    | some H =>
        (processKeyEvent cooldown now st i key value).1.last_hotkey = some H ∧
        (processKeyEvent cooldown now st i key value).1.timer_deadline = now + cooldown ∧
        dispatches (processKeyEvent cooldown now st i key value).2 = [H.command]
    | none =>
        (processKeyEvent cooldown now st i key value).1.last_hotkey = none ∧
        dispatches (processKeyEvent cooldown now st i key value).2 = [] := by
  have hks : updateKS (st.keyboard_states.getD i KeyboardState.new) key value =
      postState st i key value := rfl
  simp only [processKeyEvent, hl, updateLast_none, Option.isSome_none, Bool.or_false, hp,
    Bool.false_or, if_false, ht, hks]
  by_cases hemp : (candidateFilter st.hotkeys (postState st i key value)).isEmpty
  · have hfind : firstEqualMatch st.hotkeys (postState st i key value) = none := by
      rw [← find?_candidateFilter]
      simp [List.isEmpty_iff.mp hemp]
    rw [hfind]
    simp [hemp, dispatches_emits]
  · simp only [hemp, if_false, Bool.false_eq_true]
    rw [find?_candidateFilter]
    cases hfind : firstEqualMatch st.hotkeys (postState st i key value) with
    | some H =>
      refine ⟨rfl, rfl, ?_⟩
      simp [dispatches, dispatches_emits]
    | none => exact ⟨rfl, by simp [dispatches_emits]⟩

/-- C2: an event (press or release alike) is emitted on the virtual output
iff no hotkey's keysym equals the event's code with modifier set equal to the
device's held modifiers after the state update; when such a hotkey exists the
event is suppressed. -/
theorem passthrough_iff_no_equal_hotkey (cooldown now : Nat) (st : DaemonState) (i : Nat)
    (key : Key) (value : Nat) :
    Effect.emit i key value ∈ (processKeyEvent cooldown now st i key value).2 ↔
      ¬ ∃ H ∈ st.hotkeys, H.keysym = key ∧
          H.modifiers = (postState st i key value).state_modifiers := by
  rw [← eventInHotkeys_iff st.hotkeys (postState st i key value) key]
  have hks : updateKS (st.keyboard_states.getD i KeyboardState.new) key value =
      postState st i key value := rfl
  simp only [processKeyEvent, hks]
  by_cases he : eventInHotkeys st.hotkeys (postState st i key value) key = true
  · simp only [he, if_true]
    repeat' split
    all_goals simp_all [List.mem_append]
  · simp only [Bool.not_eq_true] at he
    simp only [he, Bool.false_eq_true, if_false]
    repeat' split
    all_goals simp_all [List.mem_append]

/-- Fixture: the binding Super+Return to the command "term". -/
def exHotkey : Hotkey := ⟨{Modifier.Super}, keyEnter, "term"⟩

/-- Fixture: one keyboard holding Super, matcher armed, table [Super+Return]. -/
def exFireSt : DaemonState :=
  ⟨[exHotkey], false, false, none, [⟨{Modifier.Super}, ∅⟩], 0⟩

/-- Witness for C1: holding Super and pressing Return against the table
[Super+Return → "term"] latches that hotkey, dispatches "term" once, and arms
the timer. -/
theorem fire_first_equal_match_witness :
    (processKeyEvent 250 0 exFireSt 0 keyEnter 1).1.last_hotkey = some exHotkey ∧
    (processKeyEvent 250 0 exFireSt 0 keyEnter 1).1.timer_deadline = 0 + 250 ∧
    dispatches (processKeyEvent 250 0 exFireSt 0 keyEnter 1).2 = [exHotkey.command] := by
  have h := fire_first_equal_match 250 0 exFireSt 0 keyEnter 1 rfl rfl rfl
  have hfm : firstEqualMatch exFireSt.hotkeys (postState exFireSt 0 keyEnter 1) =
      some exHotkey := by decide
  rw [hfm] at h
  exact h

/-- Counterexample for C3: on SIGHUP with the config file missing, the daemon
does not continue with the old hotkey table — `processSignal` returns
`Sum.inl 1`, the model of `exit(1)` inside the `load_config` closure, and in
particular not the continuation `Sum.inr exFireSt` the claim requires. -/
theorem reload_failure_exits_counterexample :
    processSignal exFireSt Signal.sighup LoadResult.missing = Sum.inl 1 ∧
    processSignal exFireSt Signal.sighup LoadResult.missing ≠ Sum.inr exFireSt := by
  exact ⟨rfl, by decide⟩

/-- C3 amended: on SIGHUP the daemon re-runs `load_config`; a missing or
invalid config makes the process exit with code 1 (the old table is not
kept), while a successful load replaces only the hotkey table. -/
theorem sighup_reload_behavior (st : DaemonState) :
    processSignal st Signal.sighup LoadResult.missing = Sum.inl 1 ∧
    processSignal st Signal.sighup LoadResult.invalid = Sum.inl 1 ∧
    ∀ hks : List Hotkey,
      processSignal st Signal.sighup (LoadResult.ok hks) =
        Sum.inr { st with hotkeys := hks } :=
  ⟨rfl, rfl, fun _ => rfl⟩

/-- Fixture: temp-paused daemon whose table holds one modifier-less binding,
device holding nothing. -/
def exTempSt : DaemonState :=
  ⟨[⟨∅, keyEnter, "x"⟩], false, true, none, [⟨∅, ∅⟩], 0⟩

/-- Counterexample for C4: while temp-paused, pressing bare Escape (held
modifiers ∅, not the literal set Super, Shift) clears `temp_paused`, because
the source only checks that the held modifiers are a *subset* of
Shift, Super — so a combination other than Super+Shift+Escape clears the
pause, refuting the claim. -/
theorem temp_pause_escape_counterexample :
    exTempSt.temp_paused = true ∧
    (postState exTempSt 0 keyEsc 1).state_modifiers ≠
      ({Modifier.Super, Modifier.Shift} : Finset Modifier) ∧
    (processKeyEvent 0 0 exTempSt 0 keyEsc 1).1.temp_paused = false := by
  refine ⟨rfl, by decide, by decide⟩

theorem tempEscape_iff (ks : KeyboardState) :
    tempEscape ks = true ↔
      (ks.state_modifiers ⊆ {Modifier.Shift, Modifier.Super} ∧
        keyEsc ∈ ks.state_keysyms) := by
  simp [tempEscape]

/-- C4 amended: while `temp_paused` is true no hotkey is ever dispatched by a
key event, and `temp_paused` is cleared exactly when the event's cycle reaches
the escape test — `paused` false, latch empty after the update, some hotkey's
modifier count equal to the held-modifier count — with the held modifiers a
subset of Shift, Super and Escape among the held keys. -/
theorem temp_pause_behavior (cooldown now : Nat) (st : DaemonState) (i : Nat)
    (key : Key) (value : Nat) (ht : st.temp_paused = true) :
    dispatches (processKeyEvent cooldown now st i key value).2 = [] ∧
    ((processKeyEvent cooldown now st i key value).1.temp_paused = false ↔
      (st.paused = false ∧ postLast st i key value = none ∧
        candidateFilter st.hotkeys (postState st i key value) ≠ [] ∧
        (postState st i key value).state_modifiers ⊆ {Modifier.Shift, Modifier.Super} ∧
        keyEsc ∈ (postState st i key value).state_keysyms)) := by
  have hks : updateKS (st.keyboard_states.getD i KeyboardState.new) key value =
      postState st i key value := rfl
  have hlast : updateLast st.last_hotkey (st.keyboard_states.getD i KeyboardState.new)
      key value = postLast st i key value := rfl
  simp only [processKeyEvent, hks, hlast, ht]
  by_cases hg : (st.paused || (postLast st i key value).isSome) = true
  · simp only [hg, if_true]
    refine ⟨dispatches_emits _ _ _ _, ?_⟩
    constructor
    · intro hcontra; simp at hcontra
    · rintro ⟨hpf, hlf, -, -, -⟩
      rw [hpf, hlf] at hg
      simp at hg
  · have hp : st.paused = false := by
      cases hp' : st.paused
      · rfl
      · exact absurd (by simp [hp']) hg
    have hl : postLast st i key value = none := by
      cases hl' : postLast st i key value
      · rfl
      · exact absurd (by simp [hl']) hg
    simp only [hg, Bool.false_eq_true, if_false]
    by_cases hemp : (candidateFilter st.hotkeys (postState st i key value)).isEmpty
    · simp only [hemp, if_true]
      refine ⟨dispatches_emits _ _ _ _, ?_⟩
      constructor
      · intro hcontra; simp at hcontra
      · rintro ⟨-, -, hne, -, -⟩
        exact absurd (List.isEmpty_iff.mp hemp) hne
    · simp only [hemp, Bool.false_eq_true, if_false, if_true]
      by_cases hesc : tempEscape (postState st i key value) = true
      · simp only [hesc, if_true]
        refine ⟨dispatches_emits _ _ _ _, ?_⟩
        simp only [true_iff]
        rcases (tempEscape_iff _).mp hesc with ⟨hsub, hmem⟩
        exact ⟨hp, hl, fun hnil => by simp [List.isEmpty_iff.mpr hnil] at hemp,
          hsub, hmem⟩
      · simp only [hesc, Bool.false_eq_true, if_false]
        refine ⟨dispatches_emits _ _ _ _, ?_⟩
        constructor
        · intro hcontra; simp at hcontra
        · rintro ⟨-, -, -, hsub, hmem⟩
          exact absurd ((tempEscape_iff _).mpr ⟨hsub, hmem⟩) hesc

/-- Witness for C4's amended statement: at the concrete temp-paused state,
pressing Escape dispatches nothing and clears `temp_paused`. -/
theorem temp_pause_behavior_witness :
    dispatches (processKeyEvent 0 0 exTempSt 0 keyEsc 1).2 = [] ∧
    (processKeyEvent 0 0 exTempSt 0 keyEsc 1).1.temp_paused = false := by
  have h := temp_pause_behavior 0 0 exTempSt 0 keyEsc 1 rfl
  exact ⟨h.1, h.2.mpr (by decide)⟩

/-- Fixture: latched on Super+Return, but this device does not hold Return. -/
def exLatchSt : DaemonState :=
  ⟨[], false, false, some exHotkey, [⟨{Modifier.Super}, ∅⟩], 0⟩

/-- Counterexample for C5: with the latch set to Super+Return → "term" and a
device that does not hold Return in its `state_keysyms`, processing a release
of Return (a constituent key of the latched hotkey) leaves the latch set —
the code clears on a keysym release only when the key is in the originating
device's held keys. -/
theorem latched_keysym_release_counterexample :
    exLatchSt.last_hotkey = some exHotkey ∧ exHotkey.keysym = keyEnter ∧
    (processKeyEvent 0 0 exLatchSt 0 keyEnter 0).1.last_hotkey = some exHotkey := by
  refine ⟨rfl, rfl, by decide⟩

/-- C5 amended: with the latch on H, a release of a key mapping to a modifier
of H clears the latch, and a release of H's keysym clears it provided that
key is currently in the originating device's held keys (a subsequent match in
the same cycle may immediately re-latch; the clearing itself is as stated). -/
theorem latch_clear_on_release (ks : KeyboardState) (key : Key) (H : Hotkey) :
    (∀ m : Modifier, modifiersMap key = some m → m ∈ H.modifiers →
      updateLast (some H) ks key 0 = none) ∧
    (modifiersMap key = none → key = H.keysym → key ∈ ks.state_keysyms →
      updateLast (some H) ks key 0 = none) := by
  constructor
  · intro m hm hmem
    simp [updateLast, hm, hmem]
  · intro hm hk hmem
    subst hk
    simp [updateLast, hm, hmem]

/-- Witness for C5's amended statement: releasing LEFTMETA (maps to Super ∈
H.modifiers) clears the latch, and releasing the held Return clears it. -/
theorem latch_clear_on_release_witness :
    updateLast (some exHotkey) ⟨{Modifier.Super}, {keyEnter}⟩ keyLeftMeta 0 = none ∧
    updateLast (some exHotkey) ⟨{Modifier.Super}, {keyEnter}⟩ keyEnter 0 = none := by
  refine ⟨(latch_clear_on_release _ keyLeftMeta exHotkey).1 Modifier.Super rfl (by decide),
    (latch_clear_on_release _ keyEnter exHotkey).2 rfl rfl (by decide)⟩

/-- C10: a release of a key mapping to a modifier M of the latched hotkey
clears the latch even when M is not among the originating device's held
modifiers (the latch is global), while a release of the latched hotkey's
keysym leaves the latch untouched when that key is not in the originating
device's held keys. -/
theorem latch_clear_asymmetry (ks : KeyboardState) (key : Key) (m : Modifier) (H : Hotkey) :
    (modifiersMap key = some m → m ∈ H.modifiers → m ∉ ks.state_modifiers →
      updateLast (some H) ks key 0 = none) ∧
    (modifiersMap key = none → key = H.keysym → key ∉ ks.state_keysyms →
      updateLast (some H) ks key 0 = some H) := by
  constructor
  · intro hm hmem _
    simp [updateLast, hm, hmem]
  · intro hm hk hmem
    simp [updateLast, hm, hmem]

/-- Witness for C10: releasing LEFTMETA on a device holding no modifiers
still clears the latch; releasing Return on a device not holding Return does
not. -/
theorem latch_clear_asymmetry_witness :
    updateLast (some exHotkey) ⟨∅, ∅⟩ keyLeftMeta 0 = none ∧
    updateLast (some exHotkey) ⟨∅, ∅⟩ keyEnter 0 = some exHotkey := by
  refine ⟨(latch_clear_asymmetry ⟨∅, ∅⟩ keyLeftMeta Modifier.Super exHotkey).1 rfl
      (by decide) (by decide),
    (latch_clear_asymmetry ⟨∅, ∅⟩ keyEnter Modifier.Super exHotkey).2 rfl rfl (by decide)⟩

/-- C9: handling SIGUSR1 only sets `paused` — it neither clears the latch nor
disarms the repeat timer — so with a hotkey latched the repeat arm still
dispatches the bound command and re-arms once the deadline has passed, even
though `paused` is true. -/
theorem repeat_survives_sigusr1 (cooldown now : Nat) (st : DaemonState) (h : Hotkey)
    (r : LoadResult) (hl : st.last_hotkey = some h) :
    processSignal st Signal.sigusr1 r = Sum.inr { st with paused := true } ∧
    ({ st with paused := true } : DaemonState).last_hotkey = some h ∧
    ({ st with paused := true } : DaemonState).timer_deadline = st.timer_deadline ∧
    (st.timer_deadline ≤ now →
      repeatTick cooldown now { st with paused := true } =
        ({ st with paused := true, timer_deadline := now + cooldown },
          [Effect.dispatch h.command])) := by
  refine ⟨rfl, by simp [hl], rfl, fun hd => ?_⟩
  simp [repeatTick, hl, hd]

/-- Witness for C9: with the latch set and the timer due, SIGUSR1 pauses the
daemon and the next tick still dispatches and re-arms. -/
theorem repeat_survives_sigusr1_witness :
    processSignal exLatchSt Signal.sigusr1 LoadResult.missing =
      Sum.inr { exLatchSt with paused := true } ∧
    repeatTick 250 7 { exLatchSt with paused := true } =
      ({ exLatchSt with paused := true, timer_deadline := 7 + 250 },
        [Effect.dispatch exHotkey.command]) := by
  have h := repeat_survives_sigusr1 250 7 exLatchSt exHotkey LoadResult.missing rfl
  exact ⟨h.1, h.2.2.2 (by decide)⟩

theorem dispatches_append (a b : List Effect) :
    dispatches (a ++ b) = dispatches a ++ dispatches b :=
  List.filterMap_append _ _ _

theorem processKeyEvent_shape (c t : Nat) (st : DaemonState) (i : Nat) (k : Key) (v : Nat) :
    (dispatches (processKeyEvent c t st i k v).2 = [] ∧
      (processKeyEvent c t st i k v).1.timer_deadline = st.timer_deadline) ∨
    (∃ cmd, dispatches (processKeyEvent c t st i k v).2 = [cmd] ∧
      (processKeyEvent c t st i k v).1.timer_deadline = t + c) := by
  simp only [processKeyEvent]
  repeat' split
  all_goals
    first
    | exact Or.inl ⟨rfl, rfl⟩
    | exact Or.inr ⟨_, rfl, rfl⟩

theorem repeatTick_shape (c t : Nat) (st : DaemonState) :
    repeatTick c t st = (st, []) ∨
    (∃ h, st.last_hotkey = some h ∧ st.timer_deadline ≤ t ∧
      repeatTick c t st =
        ({ st with timer_deadline := t + c }, [Effect.dispatch h.command])) := by
  rw [repeatTick]
  cases hl : st.last_hotkey with
  | none => exact Or.inl rfl
  | some h =>
    by_cases hd : st.timer_deadline ≤ t
    · exact Or.inr ⟨h, rfl, hd, by simp [hd]⟩
    · simp [hd]

theorem processSignal_deadline (st : DaemonState) (s : Signal) (r : LoadResult)
    (st' : DaemonState) (h : processSignal st s r = Sum.inr st') :
    st'.timer_deadline = st.timer_deadline := by
  cases s <;> simp only [processSignal] at h
  case sighup =>
    cases r <;> simp only [load_config] at h
    · cases h; rfl
    all_goals exact absurd h (by simp)
  case other => exact absurd h (by simp)
  all_goals cases h; rfl

theorem logOf_nil (t : Nat) (tag : Bool) (effs : List Effect)
    (h : dispatches effs = []) : logOf t tag effs = [] := by
  rw [logOf, h]; rfl

theorem logOf_single (t : Nat) (tag : Bool) (effs : List Effect) (cmd : String)
    (h : dispatches effs = [cmd]) : logOf t tag effs = [⟨t, tag, cmd⟩] := by
  rw [logOf, h]; rfl

theorem sep_runLoop (cooldown : Nat) (inputs : List (Nat × Input)) :
    ∀ (st : DaemonState) (d : Nat), d ≤ st.timer_deadline →
      Sep cooldown d (runLoop cooldown st inputs).2 := by
  induction inputs with
  | nil => intro st d _; trivial
  | cons e rest ih =>
    obtain ⟨t, inp⟩ := e
    intro st d hd
    cases inp with
    | key i k v =>
      simp only [runLoop]
      rcases processKeyEvent_shape cooldown t st i k v with ⟨hno, hdl⟩ | ⟨cmd, hone, hdl⟩
      · rw [logOf_nil t false _ hno, List.nil_append]
        exact ih _ d (hd.trans hdl.symm.le)
      · rw [logOf_single t false _ cmd hone, List.singleton_append]
        exact ⟨fun hco => by simp at hco, ih _ _ (le_of_eq hdl.symm)⟩
    | tick =>
      simp only [runLoop]
      rcases repeatTick_shape cooldown t st with hno | ⟨h, hl, hdue, heq⟩
      · rw [hno]
        have : logOf t true ([] : List Effect) = [] := rfl
        rw [this, List.nil_append]
        exact ih st d hd
      · rw [heq]
        have : logOf t true [Effect.dispatch h.command] = [⟨t, true, h.command⟩] := rfl
        rw [this, List.singleton_append]
        exact ⟨fun _ => hd.trans hdue, ih _ _ le_rfl⟩
    | signal s lr =>
      simp only [runLoop]
      cases hps : processSignal st s lr with
      | inl c => trivial
      | inr st' =>
        exact ih st' d (hd.trans (processSignal_deadline st s lr st' hps).symm.le)

theorem sep_adjacent (cooldown : Nat) :
    ∀ (l₁ : List LogEntry) (d : Nat) (e₁ e₂ : LogEntry) (l₂ : List LogEntry),
      Sep cooldown d (l₁ ++ e₁ :: e₂ :: l₂) → e₂.fromTick = true →
        e₁.time + cooldown ≤ e₂.time := by
  intro l₁
  induction l₁ with
  | nil =>
    intro d e₁ e₂ l₂ hsep htick
    exact hsep.2.1 htick
  | cons a l₁ ih =>
    intro d e₁ e₂ l₂ hsep htick
    exact ih _ e₁ e₂ l₂ hsep.2 htick

/-- C6: whenever the repeat timer fires with the latch on H (the deadline has
passed), H's command is dispatched again and the timer re-armed to
`now + cooldown`; consequently, along any run of the loop, a tick-sourced
dispatch comes at least `cooldown` after the dispatch preceding it in the
log. -/
theorem repeat_tick_cooldown (cooldown : Nat) (st : DaemonState)
    (inputs : List (Nat × Input)) :
    (∀ now h, st.last_hotkey = some h → st.timer_deadline ≤ now →
      repeatTick cooldown now st =
        ({ st with timer_deadline := now + cooldown }, [Effect.dispatch h.command])) ∧
    (∀ l₁ e₁ e₂ l₂, (runLoop cooldown st inputs).2 = l₁ ++ e₁ :: e₂ :: l₂ →
      e₂.fromTick = true → e₁.time + cooldown ≤ e₂.time) := by
  constructor
  · intro now h hl hd
    simp [repeatTick, hl, hd]
  · intro l₁ e₁ e₂ l₂ heq htick
    have hsep := sep_runLoop cooldown inputs st 0 (Nat.zero_le _)
    rw [heq] at hsep
    exact sep_adjacent cooldown l₁ 0 e₁ e₂ l₂ hsep htick

/-- Witness for C6: latched on "term" with cooldown 2 and ticks at times 0, 1
and 2, the tick at 1 is silent and the logged tick dispatches at 0 and 2 are
2 ≥ cooldown apart; a due tick dispatches and re-arms. -/
theorem repeat_tick_cooldown_witness :
    repeatTick 2 5 exLatchSt =
      ({ exLatchSt with timer_deadline := 5 + 2 }, [Effect.dispatch exHotkey.command]) ∧
    (0 : Nat) + 2 ≤ 2 := by
  have h := repeat_tick_cooldown 2 exLatchSt [(0, Input.tick), (1, Input.tick), (2, Input.tick)]
  exact ⟨h.1 5 exHotkey rfl (by decide),
    h.2 [] ⟨0, true, "term"⟩ ⟨2, true, "term"⟩ [] (by decide) rfl⟩

theorem getD_set_self {α : Type} (l : List α) (i : Nat) (a d : α) (h : i < l.length) :
    (l.set i a).getD i d = a := by
  induction l generalizing i with
  | nil => simp at h
  | cons b l ih =>
    cases i with
    | zero => rfl
    | succ n => exact ih n (by simpa using h)

theorem getD_set_ne {α : Type} (l : List α) (i j : Nat) (a d : α) (h : j ≠ i) :
    (l.set j a).getD i d = l.getD i d := by
  induction l generalizing i j with
  | nil => rfl
  | cons b l ih =>
    cases j with
    | zero =>
      cases i with
      | zero => exact absurd rfl h
      | succ n => rfl
    | succ jn =>
      cases i with
      | zero => rfl
      | succ n => exact ih n jn (fun hc => h (by rw [hc]))

theorem getD_replicate {α : Type} (a : α) : ∀ (n i : Nat),
    (List.replicate n a).getD i a = a := by
  intro n
  induction n with
  | zero => intro i; rfl
  | succ n ih =>
    intro i
    cases i with
    | zero => rfl
    | succ j => exact ih j

theorem getD_of_length_le {α : Type} (l : List α) (i : Nat) (d : α)
    (h : l.length ≤ i) : l.getD i d = d := by
  induction l generalizing i with
  | nil => rfl
  | cons b l ih =>
    cases i with
    | zero => simp at h
    | succ n => exact ih n (by simpa using h)

theorem processKeyEvent_keyboard_states (c t : Nat) (st : DaemonState) (i : Nat)
    (k : Key) (v : Nat) :
    (processKeyEvent c t st i k v).1.keyboard_states =
      st.keyboard_states.set i (updateKS (st.keyboard_states.getD i KeyboardState.new) k v) := by
  simp only [processKeyEvent]
  repeat' split
  all_goals rfl

theorem processKeyEvent_length (c t : Nat) (st : DaemonState) (i : Nat) (k : Key) (v : Nat) :
    (processKeyEvent c t st i k v).1.keyboard_states.length = st.keyboard_states.length := by
  rw [processKeyEvent_keyboard_states, List.length_set]

theorem filterDev_cons (i : Nat) (e : Nat × Key × Nat) (evs : List (Nat × Key × Nat)) :
    filterDev i (e :: evs) =
      if e.1 == i then e.2 :: filterDev i evs else filterDev i evs := by
  simp only [filterDev, List.filter_cons]
  split <;> simp

theorem runKS_cons (ks : KeyboardState) (x : Key × Nat) (l : List (Key × Nat)) :
    runKS ks (x :: l) = runKS (updateKS ks x.1 x.2) l := rfl

theorem processEvents_getD (evs : List (Nat × Key × Nat)) :
    ∀ (st : DaemonState) (i : Nat), i < st.keyboard_states.length →
      (processEvents st evs).keyboard_states.getD i KeyboardState.new =
        runKS (st.keyboard_states.getD i KeyboardState.new) (filterDev i evs) := by
  induction evs with
  | nil => intro st i _; rfl
  | cons e rest ih =>
    intro st i h
    have hstep : processEvents st (e :: rest) =
        processEvents (processKeyEvent 0 0 st e.1 e.2.1 e.2.2).1 rest := rfl
    rw [hstep, filterDev_cons]
    have hi' : i < (processKeyEvent 0 0 st e.1 e.2.1 e.2.2).1.keyboard_states.length := by
      rw [processKeyEvent_length]; exact h
    rw [ih _ i hi']
    by_cases hei : (e.1 == i) = true
    · rw [if_pos hei]
      have hieq : e.1 = i := beq_iff_eq.mp hei
      have hg : (processKeyEvent 0 0 st e.1 e.2.1 e.2.2).1.keyboard_states.getD i
            KeyboardState.new =
          updateKS (st.keyboard_states.getD i KeyboardState.new) e.2.1 e.2.2 := by
        rw [processKeyEvent_keyboard_states, hieq, getD_set_self _ i _ _ h]
      rw [hg, runKS_cons]
    · rw [if_neg (by simpa using hei)]
      have hg : (processKeyEvent 0 0 st e.1 e.2.1 e.2.2).1.keyboard_states.getD i
            KeyboardState.new =
          st.keyboard_states.getD i KeyboardState.new := by
        rw [processKeyEvent_keyboard_states]
        exact getD_set_ne _ i e.1 _ _ (by simpa using hei)
      rw [hg]

theorem processEvents_length (evs : List (Nat × Key × Nat)) :
    ∀ st : DaemonState,
      (processEvents st evs).keyboard_states.length = st.keyboard_states.length := by
  induction evs with
  | nil => intro st; rfl
  | cons e rest ih =>
    intro st
    have hstep : processEvents st (e :: rest) =
        processEvents (processKeyEvent 0 0 st e.1 e.2.1 e.2.2).1 rest := rfl
    rw [hstep, ih, processKeyEvent_length]

theorem keyPred_false_cases {k : Key} {e : Key × Nat} (he : keyPred k e = false) :
    e.1 ≠ k ∨ (e.2 ≠ 0 ∧ e.2 ≠ 1) := by
  rw [keyPred, Bool.and_eq_false_iff] at he
  rcases he with h | h
  · exact Or.inl (by simpa using h)
  · rw [Bool.or_eq_false_iff] at h
    exact Or.inr ⟨by simpa using h.1, by simpa using h.2⟩

theorem mem_keysyms_updateKS_pres (ks : KeyboardState) (k : Key) (e : Key × Nat)
    (_hmod : modifiersMap k = none) (he : keyPred k e = false) :
    k ∈ (updateKS ks e.1 e.2).state_keysyms ↔ k ∈ ks.state_keysyms := by
  have hkn : k ≠ e.1 ∨ (e.2 ≠ 0 ∧ e.2 ≠ 1) := by
    rcases keyPred_false_cases he with h | h
    · exact Or.inl (fun hc => h hc.symm)
    · exact Or.inr h
  rcases hkn with hne | ⟨h0, h1⟩
  · rw [updateKS]
    by_cases hv1 : e.2 = 1
    · rw [if_pos hv1]
      cases hm : modifiersMap e.1
      · simp [Finset.mem_insert, hne]
      · simp
    · rw [if_neg hv1]
      by_cases hv0 : e.2 = 0
      · rw [if_pos hv0]
        cases hm : modifiersMap e.1
        · by_cases hin : e.1 ∈ ks.state_keysyms
          · rw [if_pos hin]
            simp [Finset.mem_erase, hne]
          · rw [if_neg hin]
        · exact Iff.rfl
      · rw [if_neg hv0]
  · rw [updateKS, if_neg h1, if_neg h0]

theorem mem_keysyms_updateKS_modkey (ks : KeyboardState) (k : Key) (m : Modifier)
    (e : Key × Nat) (hmod : modifiersMap k = some m) :
    k ∈ (updateKS ks e.1 e.2).state_keysyms ↔ k ∈ ks.state_keysyms := by
  by_cases hek : e.1 = k
  · subst hek
    rw [updateKS, hmod]
    by_cases hv1 : e.2 = 1
    · rw [if_pos hv1]
    · rw [if_neg hv1]
      by_cases hv0 : e.2 = 0
      · rw [if_pos hv0]
      · rw [if_neg hv0]
  · have hne : k ≠ e.1 := fun hc => hek hc.symm
    rw [updateKS]
    by_cases hv1 : e.2 = 1
    · rw [if_pos hv1]
      cases hm : modifiersMap e.1
      · simp [Finset.mem_insert, hne]
      · simp
    · rw [if_neg hv1]
      by_cases hv0 : e.2 = 0
      · rw [if_pos hv0]
        cases hm : modifiersMap e.1
        · by_cases hin : e.1 ∈ ks.state_keysyms
          · rw [if_pos hin]
            simp [Finset.mem_erase, hne]
          · rw [if_neg hin]
        · exact Iff.rfl
      · rw [if_neg hv0]

theorem modPred_false_cases {m : Modifier} {e : Key × Nat} (he : modPred m e = false) :
    modifiersMap e.1 ≠ some m ∨ (e.2 ≠ 0 ∧ e.2 ≠ 1) := by
  rw [modPred, Bool.and_eq_false_iff] at he
  rcases he with h | h
  · exact Or.inl (by simpa using h)
  · rw [Bool.or_eq_false_iff] at h
    exact Or.inr ⟨by simpa using h.1, by simpa using h.2⟩

theorem mem_modifiers_updateKS_pres (ks : KeyboardState) (m : Modifier) (e : Key × Nat)
    (he : modPred m e = false) :
    m ∈ (updateKS ks e.1 e.2).state_modifiers ↔ m ∈ ks.state_modifiers := by
  rcases modPred_false_cases he with hne | ⟨h0, h1⟩
  · rw [updateKS]
    by_cases hv1 : e.2 = 1
    · rw [if_pos hv1]
      cases hm : modifiersMap e.1 with
      | none => exact Iff.rfl
      | some mp =>
        have hmm : m ≠ mp := fun hc => hne (by rw [hm, hc])
        simp [Finset.mem_insert, hmm]
    · rw [if_neg hv1]
      by_cases hv0 : e.2 = 0
      · rw [if_pos hv0]
        cases hm : modifiersMap e.1 with
        | none =>
          by_cases hin : e.1 ∈ ks.state_keysyms
          · rw [if_pos hin]
          · rw [if_neg hin]
        | some mp =>
          have hmm : m ≠ mp := fun hc => hne (by rw [hm, hc])
          simp [Finset.mem_erase, hmm]
      · rw [if_neg hv0]
  · rw [updateKS, if_neg h1, if_neg h0]

theorem foldl_lastUpd_some (p : Key × Nat → Bool) :
    ∀ (l : List (Key × Nat)) (v : Nat), ∃ w, l.foldl (lastUpd p) (some v) = some w := by
  intro l
  induction l with
  | nil => intro v; exact ⟨v, rfl⟩
  | cons e rest ih =>
    intro v
    rw [List.foldl_cons, lastUpd]
    split
    · exact ih e.2
    · exact ih v

theorem mem_keysyms_press (ks : KeyboardState) (k : Key) (hmod : modifiersMap k = none) :
    k ∈ (updateKS ks k 1).state_keysyms := by
  rw [updateKS, if_pos rfl, hmod]
  exact Finset.mem_insert_self _ _

theorem not_mem_keysyms_release (ks : KeyboardState) (k : Key)
    (hmod : modifiersMap k = none) : k ∉ (updateKS ks k 0).state_keysyms := by
  rw [updateKS, if_neg (by norm_num : ¬(0 : Nat) = 1), if_pos rfl, hmod]
  by_cases hin : k ∈ ks.state_keysyms
  · rw [if_pos hin]
    exact Finset.not_mem_erase _ _
  · rw [if_neg hin]
    exact hin

theorem mem_modifiers_press (ks : KeyboardState) (k : Key) (m : Modifier)
    (hmod : modifiersMap k = some m) : m ∈ (updateKS ks k 1).state_modifiers := by
  rw [updateKS, if_pos rfl, hmod]
  exact Finset.mem_insert_self _ _

theorem not_mem_modifiers_release (ks : KeyboardState) (k : Key) (m : Modifier)
    (hmod : modifiersMap k = some m) : m ∉ (updateKS ks k 0).state_modifiers := by
  rw [updateKS, if_neg (by norm_num : ¬(0 : Nat) = 1), if_pos rfl, hmod]
  exact Finset.not_mem_erase _ _

theorem keysyms_char (k : Key) (hmod : modifiersMap k = none) :
    ∀ (l : List (Key × Nat)) (ks : KeyboardState) (acc : Option Nat),
      (∀ v, acc = some v → (k ∈ ks.state_keysyms ↔ v = 1)) →
      (k ∈ (runKS ks l).state_keysyms ↔
        match l.foldl (lastUpd (keyPred k)) acc with
        | some v => v = 1
        | none => k ∈ ks.state_keysyms) := by
  intro l
  induction l with
  | nil =>
    intro ks acc hacc
    cases acc with
    | some v => exact hacc v rfl
    | none => exact Iff.rfl
  | cons e rest ih =>
    intro ks acc hacc
    rw [runKS_cons]
    simp only [List.foldl_cons]
    by_cases he : keyPred k e = true
    · have hek : e.1 = k := by
        rw [keyPred, Bool.and_eq_true] at he
        exact beq_iff_eq.mp he.1
      have h01 : e.2 = 0 ∨ e.2 = 1 := by
        rw [keyPred, Bool.and_eq_true, Bool.or_eq_true] at he
        rcases he.2 with h | h
        · exact Or.inl (beq_iff_eq.mp h)
        · exact Or.inr (beq_iff_eq.mp h)
      have hupd : lastUpd (keyPred k) acc e = some e.2 := by rw [lastUpd, if_pos he]
      have hacc' : ∀ v, some e.2 = some v →
          (k ∈ (updateKS ks e.1 e.2).state_keysyms ↔ v = 1) := by
        intro v hv
        cases hv
        rcases h01 with h0 | h1
        · rw [hek, h0]
          constructor
          · intro hmem
            exact absurd hmem (not_mem_keysyms_release ks k hmod)
          · intro hc
            exact absurd hc (by norm_num)
        · rw [hek, h1]
          constructor
          · intro _; rfl
          · intro _
            exact mem_keysyms_press ks k hmod
      rw [hupd]
      obtain ⟨w, hw⟩ := foldl_lastUpd_some (keyPred k) rest e.2
      have ihh := ih (updateKS ks e.1 e.2) (some e.2) hacc'
      rw [hw] at ihh ⊢
      exact ihh
    · have he' : keyPred k e = false := by simpa using he
      have hupd : lastUpd (keyPred k) acc e = acc := by
        rw [lastUpd, if_neg (by simp [he'])]
      rw [hupd]
      have hpres := mem_keysyms_updateKS_pres ks k e hmod he'
      have hacc' : ∀ v, acc = some v →
          (k ∈ (updateKS ks e.1 e.2).state_keysyms ↔ v = 1) := by
        intro v hv
        exact hpres.trans (hacc v hv)
      have ihh := ih (updateKS ks e.1 e.2) acc hacc'
      cases hfold : rest.foldl (lastUpd (keyPred k)) acc with
      | some v =>
        rw [hfold] at ihh
        exact ihh
      | none =>
        rw [hfold] at ihh
        exact ihh.trans hpres

theorem modifiers_char (m : Modifier) :
    ∀ (l : List (Key × Nat)) (ks : KeyboardState) (acc : Option Nat),
      (∀ v, acc = some v → (m ∈ ks.state_modifiers ↔ v = 1)) →
      (m ∈ (runKS ks l).state_modifiers ↔
        match l.foldl (lastUpd (modPred m)) acc with
        | some v => v = 1
        | none => m ∈ ks.state_modifiers) := by
  intro l
  induction l with
  | nil =>
    intro ks acc hacc
    cases acc with
    | some v => exact hacc v rfl
    | none => exact Iff.rfl
  | cons e rest ih =>
    intro ks acc hacc
    rw [runKS_cons]
    simp only [List.foldl_cons]
    by_cases he : modPred m e = true
    · have hem : modifiersMap e.1 = some m := by
        rw [modPred, Bool.and_eq_true] at he
        exact (beq_iff_eq.mp he.1)
      have h01 : e.2 = 0 ∨ e.2 = 1 := by
        rw [modPred, Bool.and_eq_true, Bool.or_eq_true] at he
        rcases he.2 with h | h
        · exact Or.inl (beq_iff_eq.mp h)
        · exact Or.inr (beq_iff_eq.mp h)
      have hupd : lastUpd (modPred m) acc e = some e.2 := by rw [lastUpd, if_pos he]
      have hacc' : ∀ v, some e.2 = some v →
          (m ∈ (updateKS ks e.1 e.2).state_modifiers ↔ v = 1) := by
        intro v hv
        cases hv
        rcases h01 with h0 | h1
        · rw [h0]
          constructor
          · intro hmem
            exact absurd hmem (not_mem_modifiers_release ks e.1 m hem)
          · intro hc
            exact absurd hc (by norm_num)
        · rw [h1]
          constructor
          · intro _; rfl
          · intro _
            exact mem_modifiers_press ks e.1 m hem
      rw [hupd]
      obtain ⟨w, hw⟩ := foldl_lastUpd_some (modPred m) rest e.2
      have ihh := ih (updateKS ks e.1 e.2) (some e.2) hacc'
      rw [hw] at ihh ⊢
      exact ihh
    · have he' : modPred m e = false := by simpa using he
      have hupd : lastUpd (modPred m) acc e = acc := by
        rw [lastUpd, if_neg (by simp [he'])]
      rw [hupd]
      have hpres := mem_modifiers_updateKS_pres ks m e he'
      have hacc' : ∀ v, acc = some v →
          (m ∈ (updateKS ks e.1 e.2).state_modifiers ↔ v = 1) := by
        intro v hv
        exact hpres.trans (hacc v hv)
      have ihh := ih (updateKS ks e.1 e.2) acc hacc'
      cases hfold : rest.foldl (lastUpd (modPred m)) acc with
      | some v =>
        rw [hfold] at ihh
        exact ihh
      | none =>
        rw [hfold] at ihh
        exact ihh.trans hpres

theorem keysyms_invariant_modkey (k : Key) (m : Modifier) (hmod : modifiersMap k = some m) :
    ∀ (l : List (Key × Nat)) (ks : KeyboardState),
      k ∈ (runKS ks l).state_keysyms ↔ k ∈ ks.state_keysyms := by
  intro l
  induction l with
  | nil => intro ks; exact Iff.rfl
  | cons e rest ih =>
    intro ks
    rw [runKS_cons]
    exact (ih _).trans (mem_keysyms_updateKS_modkey ks k m e hmod)

theorem balAux_foldl (k : Key) :
    ∀ (l : List (Key × Nat)) (down : Bool) (acc : Option Nat),
      (acc = some 1 ↔ down = true) →
      balAux down (values01 k l) = true →
      l.foldl (lastUpd (keyPred k)) acc ≠ some 1 := by
  intro l
  induction l with
  | nil =>
    intro down acc hlink hbal
    intro hcontra
    rw [List.foldl_nil] at hcontra
    have hdown : down = true := hlink.mp hcontra
    rw [values01] at hbal
    simp only [List.filter_nil, List.map_nil, balAux, hdown] at hbal
    exact absurd hbal (by simp)
  | cons e rest ih =>
    intro down acc hlink hbal
    rw [List.foldl_cons]
    by_cases he : keyPred k e = true
    · have hv : values01 k (e :: rest) = e.2 :: values01 k rest := by
        simp [values01, List.filter_cons, he]
      rw [hv] at hbal
      have h01 : e.2 = 0 ∨ e.2 = 1 := by
        rw [keyPred, Bool.and_eq_true, Bool.or_eq_true] at he
        rcases he.2 with h | h
        · exact Or.inl (beq_iff_eq.mp h)
        · exact Or.inr (beq_iff_eq.mp h)
      have hupd : lastUpd (keyPred k) acc e = some e.2 := by rw [lastUpd, if_pos he]
      rw [hupd]
      rcases h01 with h0 | h1
      · rw [h0] at hbal ⊢
        rw [balAux] at hbal
        simp only [show ((0 : Nat) == 1) = false from rfl, Bool.false_eq_true, if_false,
          show ((0 : Nat) == 0) = true from rfl, if_true, Bool.and_eq_true] at hbal
        exact ih false (some 0) (by simp) hbal.2
      · rw [h1] at hbal ⊢
        rw [balAux] at hbal
        simp only [show ((1 : Nat) == 1) = true from rfl, if_true, Bool.and_eq_true] at hbal
        exact ih true (some 1) (by simp) hbal.2
    · have he' : keyPred k e = false := by simpa using he
      have hv : values01 k (e :: rest) = values01 k rest := by
        simp [values01, List.filter_cons, he']
      rw [hv] at hbal
      have hupd : lastUpd (keyPred k) acc e = acc := by rw [lastUpd, if_neg (by simp [he'])]
      rw [hupd]
      exact ih down acc hlink hbal

theorem foldl_modPred_ne_one (m : Modifier) :
    ∀ (l : List (Key × Nat)),
      (∀ k, modifiersMap k = some m → l.foldl (lastUpd (keyPred k)) none ≠ some 1) →
      l.foldl (lastUpd (modPred m)) none ≠ some 1 := by
  intro l
  induction l using List.reverseRecOn with
  | nil => intro _; simp
  | append_singleton l e ih =>
    intro hk
    rw [List.foldl_append, List.foldl_cons, List.foldl_nil]
    by_cases he : modPred m e = true
    · rw [lastUpd, if_pos he]
      have hem : modifiersMap e.1 = some m := by
        rw [modPred, Bool.and_eq_true] at he
        exact beq_iff_eq.mp he.1
      have h01 : ((e.2 == 0) || (e.2 == 1)) = true := by
        rw [modPred, Bool.and_eq_true] at he
        exact he.2
      have h1 := hk e.1 hem
      rw [List.foldl_append, List.foldl_cons, List.foldl_nil] at h1
      have hkp : keyPred e.1 e = true := by
        rw [keyPred]
        simp only [beq_self_eq_true, Bool.true_and]
        exact h01
      rw [lastUpd, if_pos hkp] at h1
      exact h1
    · rw [lastUpd, if_neg (by simp [he])]
      apply ih
      intro k hkm
      have hthis := hk k hkm
      rw [List.foldl_append, List.foldl_cons, List.foldl_nil] at hthis
      have hkp : keyPred k e = false := by
        cases hkp' : keyPred k e
        · rfl
        · exfalso
          apply he
          rw [keyPred, Bool.and_eq_true] at hkp'
          rw [modPred, Bool.and_eq_true]
          exact ⟨by rw [beq_iff_eq.mp hkp'.1, hkm]; simp, hkp'.2⟩
      rw [lastUpd, if_neg (by simp [hkp])] at hthis
      exact hthis

theorem balanced_all (evs : List (Nat × Key × Nat)) (hb : balanced evs = true) :
    ∀ (i : Nat) (k : Key), balAux false (values01 k (filterDev i evs)) = true := by
  intro i k
  by_cases hmem : (i, k) ∈ evs.map fun e => (e.1, e.2.1)
  · rw [balanced, List.all_eq_true] at hb
    exact hb (i, k) hmem
  · have hempty : values01 k (filterDev i evs) = [] := by
      rw [values01, List.map_eq_nil_iff]
      rw [List.filter_eq_nil_iff]
      intro a ha
      intro hkp
      apply hmem
      rw [filterDev] at ha
      obtain ⟨e, he, heq⟩ := List.mem_map.mp ha
      have hei : (e.1 == i) = true := (List.mem_filter.mp he).2
      have hek : a.1 = k := by
        rw [keyPred, Bool.and_eq_true] at hkp
        exact beq_iff_eq.mp hkp.1
      refine List.mem_map.mpr ⟨e, (List.mem_filter.mp he).1, ?_⟩
      rw [Prod.ext_iff]
      exact ⟨beq_iff_eq.mp hei, by rw [heq, hek]⟩
    rw [hempty]
    rfl

theorem runKS_balanced_empty (l : List (Key × Nat))
    (hb : ∀ k : Key, balAux false (values01 k l) = true) :
    runKS KeyboardState.new l = KeyboardState.new := by
  have hkeys : ∀ k : Key, k ∉ (runKS KeyboardState.new l).state_keysyms := by
    intro k
    cases hmod : modifiersMap k with
    | none =>
      have hchar := keysyms_char k hmod l KeyboardState.new none (fun v hv => nomatch hv)
      rw [hchar]
      have hne1 := balAux_foldl k l false none (by simp) (hb k)
      cases hfold : l.foldl (lastUpd (keyPred k)) none with
      | some v =>
        show ¬v = 1
        intro hv1
        exact hne1 (by rw [hfold, hv1])
      | none =>
        show k ∉ KeyboardState.new.state_keysyms
        simp [KeyboardState.new]
    | some m =>
      rw [keysyms_invariant_modkey k m hmod l KeyboardState.new]
      simp [KeyboardState.new]
  have hmods : ∀ m : Modifier, m ∉ (runKS KeyboardState.new l).state_modifiers := by
    intro m
    have hchar := modifiers_char m l KeyboardState.new none (fun v hv => nomatch hv)
    rw [hchar]
    have hper : ∀ k, modifiersMap k = some m →
        l.foldl (lastUpd (keyPred k)) none ≠ some 1 := by
      intro k _
      exact balAux_foldl k l false none (by simp) (hb k)
    have hne1 := foldl_modPred_ne_one m l hper
    cases hfold : l.foldl (lastUpd (modPred m)) none with
    | some v =>
      show ¬v = 1
      intro hv1
      exact hne1 (by rw [hfold, hv1])
    | none =>
      show m ∉ KeyboardState.new.state_modifiers
      simp [KeyboardState.new]
  have h1 : (runKS KeyboardState.new l).state_modifiers = ∅ :=
    Finset.eq_empty_iff_forall_not_mem.mpr hmods
  have h2 : (runKS KeyboardState.new l).state_keysyms = ∅ :=
    Finset.eq_empty_iff_forall_not_mem.mpr hkeys
  cases hres : runKS KeyboardState.new l with
  | mk sm sk =>
    rw [hres] at h1 h2
    rw [KeyboardState.new]
    rw [show sm = ∅ from h1, show sk = ∅ from h2]

/-- C7: processing any balanced tagged event sequence (per device and key,
presses and releases alternate and end released) from the startup state
leaves every device's `state_modifiers` and `state_keysyms` empty. -/
theorem balanced_sequence_empties_state (hotkeys : List Hotkey) (n : Nat)
    (evs : List (Nat × Key × Nat)) (hb : balanced evs = true) (i : Nat) (hi : i < n) :
    (processEvents (initState hotkeys n) evs).keyboard_states.getD i KeyboardState.new =
      KeyboardState.new := by
  have hlen : i < (initState hotkeys n).keyboard_states.length := by
    simp only [initState, List.length_replicate]
    exact hi
  rw [processEvents_getD evs (initState hotkeys n) i hlen]
  have hinit : (initState hotkeys n).keyboard_states.getD i KeyboardState.new =
      KeyboardState.new := getD_replicate _ n i
  rw [hinit]
  exact runKS_balanced_empty (filterDev i evs) (fun k => balanced_all evs hb i k)

/-- Witness for C7: pressing and releasing Super+Return in a balanced order
returns the single keyboard to the empty state. -/
theorem balanced_sequence_empties_state_witness :
    (processEvents (initState [exHotkey] 1)
        [(0, keyLeftMeta, 1), (0, keyEnter, 1), (0, keyEnter, 0),
          (0, keyLeftMeta, 0)]).keyboard_states.getD 0 KeyboardState.new =
      KeyboardState.new :=
  balanced_sequence_empties_state [exHotkey] 1
    [(0, keyLeftMeta, 1), (0, keyEnter, 1), (0, keyEnter, 0), (0, keyLeftMeta, 0)]
    (by decide) 0 (by decide)

/-- C8: at every point of event processing (after any tagged event list from
startup), no key code is both in a device's `state_keysyms` and mapped by the
modifier map to a member of that device's `state_modifiers` — presses of
modifier-mapped codes go only to `state_modifiers`, all other presses only to
`state_keysyms`. -/
theorem no_code_in_both_sets (hotkeys : List Hotkey) (n : Nat)
    (evs : List (Nat × Key × Nat)) (i : Nat) (k : Key) :
    ¬(k ∈ ((processEvents (initState hotkeys n) evs).keyboard_states.getD i
          KeyboardState.new).state_keysyms ∧
      ∃ m ∈ ((processEvents (initState hotkeys n) evs).keyboard_states.getD i
          KeyboardState.new).state_modifiers, modifiersMap k = some m) := by
  rintro ⟨hk, m, _, hmap⟩
  by_cases hi : i < (initState hotkeys n).keyboard_states.length
  · rw [processEvents_getD evs _ i hi] at hk
    have hinit : (initState hotkeys n).keyboard_states.getD i KeyboardState.new =
        KeyboardState.new := getD_replicate _ n i
    rw [hinit] at hk
    rw [keysyms_invariant_modkey k m hmap] at hk
    simp [KeyboardState.new] at hk
  · have hout : (processEvents (initState hotkeys n) evs).keyboard_states.getD i
        KeyboardState.new = KeyboardState.new := by
      apply getD_of_length_le
      rw [processEvents_length]
      exact Nat.le_of_not_lt hi
    rw [hout] at hk
    simp [KeyboardState.new] at hk

/-- Witness for C8: after pressing Super then Return, the code of Return is
not simultaneously a held keysym and a held-modifier code. -/
theorem no_code_in_both_sets_witness :
    ¬(keyEnter ∈ ((processEvents (initState [exHotkey] 1)
          [(0, keyLeftMeta, 1), (0, keyEnter, 1)]).keyboard_states.getD 0
          KeyboardState.new).state_keysyms ∧
      ∃ m ∈ ((processEvents (initState [exHotkey] 1)
          [(0, keyLeftMeta, 1), (0, keyEnter, 1)]).keyboard_states.getD 0
          KeyboardState.new).state_modifiers, modifiersMap keyEnter = some m) :=
  no_code_in_both_sets [exHotkey] 1 [(0, keyLeftMeta, 1), (0, keyEnter, 1)] 0 keyEnter

end Swhkd
